import Mathlib

/-!
Verification of the `IniFile` configuration store (Source/Core/Common/IniFile.h).

Strings are modelled as lists of characters (`Str`).  The operations whose
bodies appear inline in the header (`CaseInsensitiveStringCompare`, the typed
`Set`/`Get` overloads, `Section::operator<`, both `GetIfExists` overloads) are
transcribed from that code; operations whose bodies live in the missing
`IniFile.cpp` are modelled from the specification and marked as such in their
doc comments.
-/

/-- Strings are modelled as lists of characters. -/
abbrev Str := List Char

/-- Whitespace characters trimmed from keys, values and section names. -/
def isSpace (c : Char) : Bool := c == ' ' || c == '\t' || c == '\r' || c == '\n'

/-- Drop leading whitespace. -/
def trimLeft (s : Str) : Str := s.dropWhile isSpace

/-- Drop trailing whitespace. -/
def trimRight (s : Str) : Str := (s.reverse.dropWhile isSpace).reverse

/-- Drop surrounding whitespace. -/
def trim (s : Str) : Str := trimLeft (trimRight s)

/-- ASCII lower-casing of one character, as `tolower` does in the C locale. -/
def lowerChar (c : Char) : Char :=
  if 'A' ≤ c ∧ c ≤ 'Z' then Char.ofNat (c.toNat + 32) else c

/-- Case folding of a string, character by character. -/
def foldCase (s : Str) : Str := s.map lowerChar

/-- Case-insensitive equality of strings, `strcasecmp(a, b) == 0`. -/
def ciEq (a b : Str) : Bool := decide (foldCase a = foldCase b)

/-- Byte-wise lexicographic comparison, `std::string`'s `operator<`. -/
def strLt : Str → Str → Bool
  | [], [] => false
  | [], _ :: _ => true
  | _ :: _, [] => false
  | a :: as, b :: bs => if a < b then true else if b < a then false else strLt as bs

/-- Case-insensitive comparison of strings, `strcasecmp(a, b) < 0`; this is
`CaseInsensitiveStringCompare::operator()` from the header. -/
def ciLt (a b : Str) : Bool := strLt (foldCase a) (foldCase b)

/-- Split a line at its first `=`: returns the part before and the part after,
or `none` when the line has no `=`. -/
def splitAtEq : Str → Option (Str × Str)
  | [] => none
  | c :: rest =>
    if c = '=' then some ([], rest)
    else (splitAtEq rest).map (fun p => (c :: p.1, p.2))

/-- Strip trailing newline and carriage-return characters from a line. -/
def chompCR (l : Str) : Str :=
  (l.reverse.dropWhile (fun c => c == '\r' || c == '\n')).reverse

/-- Modelled from the spec: the comment-stripping rule of §4.1/§4.2 (the body of
`IniFile.cpp` is not in the sources).  The part of the line before its first
`#` is kept, trimmed of surrounding whitespace. -/
def stripComment (l : Str) : Str := trim (l.takeWhile (fun c => !(c == '#')))

/-- Modelled from the spec: §4.2 step 3 (the body of `IniFile.cpp` is not in
the sources).  A line whose first non-blank character is `[` and which contains
a closing `]` is a section header; the substring between the brackets, trimmed,
is the section name. -/
def parseHeader (l : Str) : Option Str :=
  match trimLeft l with
  | [] => none
  | c :: rest =>
    if c = '[' ∧ ']' ∈ rest then some (trim (rest.takeWhile (fun d => !(d == ']'))))
    else none

/-- Modelled from the spec: `IniFile::ParseLine` (§4.2 step 5; the body of
`IniFile.cpp` is not in the sources).  The line is split at its first `=`; the
trimmed part before it is the key, the part after it, trimmed and with any
trailing `#` comment stripped, is the value.  A line with no `=`, or with an
empty key, is not a key/value line (`none`). -/
def ParseLine (line : Str) : Option (Str × Str) :=
  match splitAtEq line with
  | none => none
  | some (b, a) =>
    let key := trim b
    if key = [] then none else some (key, stripComment a)

/-- Decimal digit to character, for the external value codec. -/
def digitChar (d : Nat) : Char :=
  if d = 0 then '0' else if d = 1 then '1' else if d = 2 then '2'
  else if d = 3 then '3' else if d = 4 then '4' else if d = 5 then '5'
  else if d = 6 then '6' else if d = 7 then '7' else if d = 8 then '8'
  else if d = 9 then '9' else '0'

/-- Character to decimal digit, for the external value codec. -/
def charVal (c : Char) : Option Nat :=
  if c = '0' then some 0 else if c = '1' then some 1 else if c = '2' then some 2
  else if c = '3' then some 3 else if c = '4' then some 4 else if c = '5' then some 5
  else if c = '6' then some 6 else if c = '7' then some 7 else if c = '8' then some 8
  else if c = '9' then some 9 else none

/-- Render a natural number in decimal. -/
def natToStr (n : Nat) : Str :=
  if n = 0 then ['0'] else (Nat.digits 10 n).reverse.map digitChar

/-- Convert every character of a string to a digit, failing if any character is
not a digit. -/
def mapCharVals : List Char → Option (List Nat)
  | [] => some []
  | c :: cs =>
    match charVal c, mapCharVals cs with
    | some d, some ds => some (d :: ds)
    | _, _ => none

/-- Parse a non-empty all-digit string as a natural number. -/
def parseNat (s : Str) : Option Nat :=
  if s = [] then none
  else (mapCharVals s).map (fun ds => Nat.ofDigits 10 ds.reverse)

/-- Modelled from the spec: the external value codec's `ToString` for integers
(§6; `ValueToString` lives in `StringUtil`, outside the sources). -/
def ValueToString (i : Int) : Str :=
  if i < 0 then '-' :: natToStr i.natAbs else natToStr i.natAbs

/-- Modelled from the spec: the external value codec's `TryParse` for integers
(§6; `TryParse` lives in `StringUtil`, outside the sources). -/
def TryParseInt (s : Str) : Option Int :=
  if s.head? = some '-' then (parseNat s.tail).map (fun n => -(n : Int))
  else (parseNat s).map (fun n => (n : Int))

/-- The `IniFile::Section` data members from the header: the section `name`,
the `keys_order` bookkeeping vector, the `values` map (modelled as an
association list whose lookups are case-insensitive, mirroring
`std::map<std::string, std::string, CaseInsensitiveStringCompare>`), and the
raw-line fallback body `m_lines`. -/
structure IniFile.Section where
  name : Str
  keys_order : List Str
  values : List (Str × Str)
  m_lines : List Str
deriving DecidableEq

/-- Transcribed from the header: `Section::operator<` compares section names
with `std::string`'s case-sensitive `operator<`. -/
def IniFile.Section.lt (a b : IniFile.Section) : Bool := strLt a.name b.name

/-- Find the entry for a key in the `values` map: `values.find(key)` under
`CaseInsensitiveStringCompare`. -/
def findPair (values : List (Str × Str)) (key : Str) : Option (Str × Str) :=
  values.find? (fun p => ciEq p.1 key)

/-- Look up a key's value in the `values` map, case-insensitively. -/
def lookupVal (values : List (Str × Str)) (key : Str) : Option Str :=
  (findPair values key).map (fun p => p.2)

/-- Modelled from the spec: `Section::Exists` (§4.1; the body of `IniFile.cpp`
is not in the sources): true iff an entry with that key, compared
case-insensitively, is present. -/
def IniFile.Section.Exists (s : IniFile.Section) (key : Str) : Bool :=
  (findPair s.values key).isSome

/-- Replace the value of the first entry whose key matches case-insensitively,
keeping the stored key's original case. -/
def replaceFirst : List (Str × Str) → Str → Str → List (Str × Str)
  | [], _, _ => []
  | p :: ps, key, v =>
    if ciEq p.1 key then (p.1, v) :: ps else p :: replaceFirst ps key v

/-- Modelled from the spec: the string overload of `Section::Set` (§4.1; the
body of `IniFile.cpp` is not in the sources): overwrite the entry if one
matches case-insensitively, preserving its original key case; otherwise append
a new entry and record the key in `keys_order`. -/
def IniFile.Section.Set (s : IniFile.Section) (key new_value : Str) : IniFile.Section :=
  match findPair s.values key with
  | some _ => { s with values := replaceFirst s.values key new_value }
  | none =>
    { s with values := s.values ++ [(key, new_value)],
             keys_order := s.keys_order ++ [key] }

/-- Modelled from the spec: `Section::Delete` (§4.1; the body of `IniFile.cpp`
is not in the sources): remove the entry if present, also dropping the key from
`keys_order`; return whether it existed. -/
def IniFile.Section.Delete (s : IniFile.Section) (key : Str) : IniFile.Section × Bool :=
  match findPair s.values key with
  | some _ =>
    ({ s with values := s.values.eraseP (fun p => ciEq p.1 key),
              keys_order := s.keys_order.eraseP (fun k => ciEq k key) }, true)
  | none => (s, false)

/-- The global empty-string sentinel `IniFile::NULL_STRING`. -/
def NULL_STRING : Str := []

/-- Modelled from the spec: the string overload of `Section::Get` (§4.1; the
body of `IniFile.cpp` is not in the sources): if the key is present the stored
value is written and `true` returned, otherwise the default is written and
`false` returned.  The written string is the second component. -/
def IniFile.Section.Get (s : IniFile.Section) (key : Str) (default_value : Str) :
    Bool × Str :=
  match findPair s.values key with
  | some p => (true, p.2)
  | none => (false, default_value)

/-- Transcribed from the header: the typed `Section::Get` overload for `int`.
`Get(key, &temp)` is called with the `NULL_STRING` default; on success the
parsed value is returned with `true`, otherwise the default with `false`. -/
def IniFile.Section.GetTyped (s : IniFile.Section) (key : Str) (default_value : Int) :
    Bool × Int :=
  let temp := s.Get key NULL_STRING
  if temp.1 then
    match TryParseInt temp.2 with
    | some v => (true, v)
    | none => (false, default_value)
  else (false, default_value)

/-- Transcribed from the header: the typed `Section::Set` overload for `int`,
which stores `ValueToString new_value`. -/
def IniFile.Section.SetTyped (s : IniFile.Section) (key : Str) (new_value : Int) :
    IniFile.Section :=
  s.Set key (ValueToString new_value)

/-- Transcribed from the header: the typed `Section::Set` overload with a
default: if `new_value != default_value` store it, else delete the key. -/
def IniFile.Section.SetTypedDefault (s : IniFile.Section) (key : Str)
    (new_value default_value : Int) : IniFile.Section :=
  if new_value ≠ default_value then s.SetTyped key new_value else (s.Delete key).1

/-- Modelled from the spec: `Section::SetLines` (§4.1; the body of
`IniFile.cpp` is not in the sources): replaces `m_lines` wholesale. -/
def IniFile.Section.SetLines (s : IniFile.Section) (lines : List Str) : IniFile.Section :=
  { s with m_lines := lines }

/-- Modelled from the spec: `Section::GetLines` (§4.1; the body of
`IniFile.cpp` is not in the sources): returns `false` when `m_lines` is empty;
otherwise returns the lines, filtered by the §4.1 comment rule when
`remove_comments` is true (a line reduced to nothing by comment stripping is
dropped entirely). -/
def IniFile.Section.GetLines (s : IniFile.Section) (remove_comments : Bool) :
    Bool × List Str :=
  if s.m_lines = [] then (false, [])
  else
    (true,
      if remove_comments then
        s.m_lines.filterMap (fun l =>
          if stripComment l = [] then none else some (stripComment l))
      else s.m_lines)

/-- Transcribed from the header: `Section::HasLines`. -/
def IniFile.Section.HasLines (s : IniFile.Section) : Bool := !(s.m_lines = [])

/-- The `IniFile` document: its ordered list of sections. -/
structure IniFile where
  sections : List IniFile.Section
deriving DecidableEq

/-- The empty document. -/
def IniFile.empty : IniFile := ⟨[]⟩

/-- A fresh, empty section with the given name. -/
def emptySec (n : Str) : IniFile.Section := ⟨n, [], [], []⟩

/-- The sequence of section names of a document, in document order. -/
def docNames (ini : IniFile) : List Str := ini.sections.map (fun s => s.name)

/-- Find a section by case-sensitive name match: `IniFile::GetSection`. -/
def findSec (ini : IniFile) (n : Str) : Option IniFile.Section :=
  ini.sections.find? (fun s => decide (s.name = n))

/-- Modelled from the spec: `IniFile::GetOrCreateSection` (§4.4; the body of
`IniFile.cpp` is not in the sources): return the document unchanged when a
section of that name exists (case-sensitively), otherwise append a fresh empty
section. -/
def IniFile.GetOrCreateSection (ini : IniFile) (n : Str) : IniFile :=
  match findSec ini n with
  | some _ => ini
  | none => ⟨ini.sections ++ [emptySec n]⟩

/-- Apply `f` to the first section with the given name, mirroring mutation
through the `Section*` returned by `GetOrCreateSection`. -/
def applyFirst : List IniFile.Section → Str → (IniFile.Section → IniFile.Section) →
    List IniFile.Section
  | [], _, _ => []
  | s :: ss, n, f => if s.name = n then f s :: ss else s :: applyFirst ss n f

/-- Apply `f` to the first section named `n` of a document. -/
def modifySec (ini : IniFile) (n : Str) (f : IniFile.Section → IniFile.Section) :
    IniFile :=
  ⟨applyFirst ini.sections n f⟩

/-- Modelled from the spec: the per-line step of `IniFile::Load`'s parse loop
(§4.2; the body of `IniFile.cpp` is not in the sources).  State is the document
plus the current section's name.  Trailing newline characters are stripped;
blank lines are skipped; a header line selects (creating if necessary) its
section; other lines are dropped before the first header, parsed as `key =
value` and stored via `Section::Set` when possible, and appended to the current
section's `m_lines` otherwise. -/
def doLine (st : IniFile × Option Str) (line : Str) : IniFile × Option Str :=
  let l := chompCR line
  if trim l = [] then st
  else
    match parseHeader l with
    | some n => (st.1.GetOrCreateSection n, some n)
    | none =>
      match st.2 with
      | none => st
      | some n =>
        match ParseLine l with
        | some (k, v) => (modifySec st.1 n (fun s => s.Set k v), st.2)
        | none =>
          (modifySec st.1 n (fun s => { s with m_lines := s.m_lines ++ [l] }), st.2)

/-- Run the parse loop over a list of lines. -/
def parseLines : List Str → IniFile × Option Str → IniFile × Option Str
  | [], st => st
  | l :: ls, st => parseLines ls (doLine st l)

/-- Modelled from the spec: `IniFile::Load` (§4.2; the body of `IniFile.cpp`
is not in the sources).  The file's lines are supplied by the external
byte-stream provider; when `keep_current_data` is false the document is cleared
first, otherwise parsing merges into the existing state. -/
def IniFile.Load (ini : IniFile) (lines : List Str) (keep_current_data : Bool) :
    IniFile :=
  (parseLines lines ((if keep_current_data then ini else IniFile.empty), none)).1

/-- Modelled from the spec: the text `IniFile::Save` emits for one section
(§4.3; the body of `IniFile.cpp` is not in the sources): the `[name]` header,
then the raw lines verbatim when the section is in raw mode, otherwise one
`key = value` line per key in `keys_order`. -/
def saveSection (s : IniFile.Section) : List Str :=
  ('[' :: s.name ++ [']']) ::
    (if s.m_lines = [] then
      s.keys_order.map (fun k => k ++ ' ' :: '=' :: ' ' :: (lookupVal s.values k).getD [])
    else s.m_lines)

/-- Modelled from the spec: `IniFile::Save` (§4.3; the body of `IniFile.cpp`
is not in the sources): the concatenation of every section's block, in document
order.  The produced lines are handed to the external byte-stream provider. -/
def IniFile.Save (ini : IniFile) : List Str := (ini.sections.map saveSection).flatten

/-- The `key = value` text line emitted for one entry. -/
def kvLine (p : Str × Str) : Str := p.1 ++ ' ' :: '=' :: ' ' :: p.2

/-- Insert a section into a list sorted ascending by `Section::operator<`. -/
def insertSorted (x : IniFile.Section) : List IniFile.Section → List IniFile.Section
  | [] => [x]
  | y :: ys => if IniFile.Section.lt y x then y :: insertSorted x ys else x :: y :: ys

/-- Modelled from the spec: `IniFile::SortSections` (§4.4; the body of
`IniFile.cpp` is not in the sources): reorder the section sequence by name,
in the order given by `Section::operator<` (which the spec says the ordering
matches), i.e. `sections.sort()`. -/
def IniFile.SortSections (ini : IniFile) : IniFile :=
  ⟨ini.sections.foldr insertSorted []⟩

/-- Modelled from the spec: the document-level `IniFile::Exists` (the body of
`IniFile.cpp` is not in the sources): true iff the section exists and contains
the key. -/
def IniFile.Exists (ini : IniFile) (sectionName key : Str) : Bool :=
  match findSec ini sectionName with
  | some s => s.Exists key
  | none => false

/-- Transcribed from the header: the three-argument `IniFile::GetIfExists`
overload (for `int`).  The returned triple is the document after the call, the
boolean result, and the value written through `T* value` (`none` when the
pointee is left unwritten).  The typed `Get` called through it uses the
value-initialized default `{}`, i.e. `0`. -/
def IniFile.GetIfExists (ini : IniFile) (sectionName key : Str) :
    IniFile × Bool × Option Int :=
  if ini.Exists sectionName key then
    let ini' := ini.GetOrCreateSection sectionName
    let s := (findSec ini' sectionName).getD (emptySec sectionName)
    let r := s.GetTyped key 0
    (ini', r.1, some r.2)
  else (ini, false, none)

/-- Transcribed from the header: the four-argument `IniFile::GetIfExists`
overload (for `int`), which writes `defaultValue` through the pointer when the
key does not exist. -/
def IniFile.GetIfExistsD (ini : IniFile) (sectionName key : Str)
    (defaultValue : Int) : IniFile × Bool × Option Int :=
  if ini.Exists sectionName key then
    let ini' := ini.GetOrCreateSection sectionName
    let s := (findSec ini' sectionName).getD (emptySec sectionName)
    let r := s.GetTyped key defaultValue
    (ini', r.1, some r.2)
  else (ini, false, some defaultValue)

/-- A section's `values` map holds at most one entry per case-insensitive key
equivalence class. -/
def CIUnique (s : IniFile.Section) : Prop :=
  s.values.Pairwise (fun p q => foldCase p.1 ≠ foldCase q.1)

/-- Well-formedness of a section name for the round-trip theorems: it carries
no surrounding whitespace and no closing bracket. -/
def WFname (n : Str) : Prop := trim n = n ∧ ']' ∉ n

/-- Well-formedness of a key for the round-trip theorems: non-empty, no
surrounding whitespace, no `=`, no `#`, and not starting with `[`. -/
def WFkey (k : Str) : Prop :=
  k ≠ [] ∧ trim k = k ∧ '=' ∉ k ∧ '#' ∉ k ∧ k.head? ≠ some '['

/-- Well-formedness of a value for the round-trip theorems: no surrounding
whitespace and no `#`. -/
def WFval (v : Str) : Prop := trim v = v ∧ '#' ∉ v

/-- A section containing only well-formed `key = value` content: not in raw
mode, `keys_order` aligned with `values`, keys case-insensitively distinct, and
every key and value individually well-formed. -/
def WFsec (s : IniFile.Section) : Prop :=
  WFname s.name ∧ s.m_lines = [] ∧ s.keys_order = s.values.map (fun p => p.1) ∧
    CIUnique s ∧ ∀ p ∈ s.values, WFkey p.1 ∧ WFval p.2

/-- A document containing only well-formed `[section]` / `key = value`
content: distinct section names, every section well-formed. -/
def WFdoc (ini : IniFile) : Prop :=
  ini.sections.Pairwise (fun a b => a.name ≠ b.name) ∧ ∀ s ∈ ini.sections, WFsec s

/-- Look up the value stored for `key` in section `n` of a document. -/
def docLookup (ini : IniFile) (n key : Str) : Option Str :=
  (findSec ini n).bind (fun s => lookupVal s.values key)

/-- Relation maintained between a `Load` run that keeps current data (state
`D`, started from document `A`) and the same run started from the empty
document (state `E`): `D`'s section-name sequence is `A`'s followed by `E`'s
new names, every lookup in `D` is the lookup in `E` with `A` as fallback, and
the current section exists in both states. -/
def mergeInv (A D E : IniFile) (cur : Option Str) : Prop :=
  (docNames D = docNames A
      ++ (docNames E).filter (fun m => decide (m ∉ docNames A)))
  ∧ (∀ n k, docLookup D n k = (docLookup E n k).or (docLookup A n k))
  ∧ (∀ n, cur = some n → (findSec E n).isSome = true ∧ (findSec D n).isSome = true)

/-- A two-section document whose names differ only in case, for exercising
`SortSections`. -/
def docSort : IniFile := ⟨[emptySec "a".data, emptySec "B".data]⟩

/-- A document whose single value contains a `#`, so that saving, loading and
saving again alters the text. -/
def docHashValue : IniFile :=
  ⟨[⟨"s".data, ["k".data], [("k".data, "a #b".data)], []⟩]⟩

/-- A small well-formed document for exercising the save/load round trip. -/
def docRoundTrip : IniFile :=
  ⟨[⟨"s".data, ["k".data], [("k".data, "v".data)], []⟩]⟩

/-- A second small well-formed document for exercising save/load/save. -/
def docSaveTwice : IniFile :=
  ⟨[⟨"t".data, ["k2".data], [("k2".data, "w".data)], []⟩]⟩

/-- A raw-mode section holding the spec's §8 comment-stripping example. -/
def secRawLines : IniFile.Section :=
  ⟨"r".data, [], [], ["# c".data, "a=b".data, "x # trailing".data]⟩

theorem ciEq_iff (a b : Str) : ciEq a b = true ↔ foldCase a = foldCase b := by
  simp [ciEq]

theorem ciEq_self (a : Str) : ciEq a a = true := by simp [ciEq]

theorem findPair_congr {k k' : Str} (vs : List (Str × Str))
    (h : foldCase k = foldCase k') : findPair vs k = findPair vs k' := by
  unfold findPair
  have hp : (fun p : Str × Str => ciEq p.1 k) = (fun p => ciEq p.1 k') := by
    funext p; simp [ciEq, h]
  rw [hp]

theorem replaceFirst_map_fst (vs : List (Str × Str)) (k v : Str) :
    (replaceFirst vs k v).map (fun p => p.1) = vs.map (fun p => p.1) := by
  induction vs with
  | nil => rfl
  | cons p ps ih =>
    unfold replaceFirst
    by_cases h : ciEq p.1 k = true
    · simp [h]
    · simp only [Bool.not_eq_true] at h
      simp [h, ih]

theorem findPair_replaceFirst (vs : List (Str × Str)) (k v k' : Str) :
    findPair (replaceFirst vs k v) k'
      = if foldCase k' = foldCase k
        then (findPair vs k).map (fun p => (p.1, v))
        else findPair vs k' := by
  induction vs with
  | nil => simp [replaceFirst, findPair]
  | cons p ps ih =>
    by_cases hpk : ciEq p.1 k = true
    · have hfold : foldCase p.1 = foldCase k := (ciEq_iff _ _).1 hpk
      by_cases hkk : foldCase k' = foldCase k
      · have : ciEq p.1 k' = true := (ciEq_iff _ _).2 (hfold.trans hkk.symm)
        simp [replaceFirst, findPair, hpk, hkk, this]
      · have : ciEq p.1 k' = false := by
          rw [← Bool.not_eq_true, ciEq_iff]
          intro hc
          exact hkk (hc.symm.trans hfold)
        simp [replaceFirst, findPair, hpk, hkk, this]
    · have hpk' : ciEq p.1 k = false := by simpa using hpk
      by_cases hkk : foldCase k' = foldCase k
      · have : ciEq p.1 k' = false := by
          rw [← Bool.not_eq_true, ciEq_iff]
          intro hc
          exact hpk (by rw [ciEq_iff]; exact hc.trans hkk)
        unfold replaceFirst findPair
        simp only [hpk', if_neg, Bool.false_eq_true, not_false_iff, List.find?_cons, this]
        simpa [findPair, hkk] using ih
      · unfold replaceFirst findPair
        by_cases hpk2 : ciEq p.1 k' = true
        · simp [hpk', hpk2, hkk]
        · have hpk2' : ciEq p.1 k' = false := by simpa using hpk2
          simp only [hpk', Bool.false_eq_true, if_false, List.find?_cons, hpk2']
          simpa [findPair, hkk] using ih

theorem findPair_set (s : IniFile.Section) (k v k' : Str) :
    findPair (s.Set k v).values k'
      = if foldCase k' = foldCase k
        then some ((((findPair s.values k).map (fun p => p.1)).getD k), v)
        else findPair s.values k' := by
  unfold IniFile.Section.Set
  cases hf : findPair s.values k with
  | some p =>
    simp only [hf]
    rw [findPair_replaceFirst]
    by_cases hkk : foldCase k' = foldCase k <;> simp [hkk, hf]
  | none =>
    simp only [hf]
    by_cases hkk : foldCase k' = foldCase k
    · have h1 : findPair s.values k' = none := (findPair_congr s.values hkk).trans hf
      have h2 : ciEq k k' = true := (ciEq_iff _ _).2 hkk.symm
      unfold findPair at h1 ⊢
      rw [List.find?_append, h1]
      simp [h2, hkk, List.find?_cons]
    · have h2 : ciEq k k' = false := by
        rw [← Bool.not_eq_true, ciEq_iff]
        exact fun hc => hkk hc.symm
      unfold findPair
      rw [List.find?_append]
      simp [h2, hkk, List.find?_cons]

theorem lookupVal_set (s : IniFile.Section) (k v k' : Str) :
    lookupVal (s.Set k v).values k'
      = if foldCase k' = foldCase k then some v else lookupVal s.values k' := by
  unfold lookupVal
  rw [findPair_set]
  by_cases hkk : foldCase k' = foldCase k <;> simp [hkk]

theorem findPair_eraseP_of_unique {vs : List (Str × Str)} {k : Str}
    (h : vs.Pairwise (fun p q => foldCase p.1 ≠ foldCase q.1)) :
    findPair (vs.eraseP (fun p => ciEq p.1 k)) k = none := by
  induction vs with
  | nil => rfl
  | cons p ps ih =>
    rcases List.pairwise_cons.1 h with ⟨hp, hps⟩
    by_cases hpk : ciEq p.1 k = true
    · simp only [List.eraseP_cons, hpk, cond_true]
      rw [findPair, List.find?_eq_none]
      intro q hq hqk
      exact hp q hq (((ciEq_iff _ _).1 hpk).trans ((ciEq_iff _ _).1 hqk).symm)
    · have hpk' : ciEq p.1 k = false := by simpa using hpk
      simp only [List.eraseP_cons, hpk', cond_false]
      have hrec := ih hps
      unfold findPair at hrec ⊢
      simp [List.find?_cons, hpk', hrec]

theorem exists_delete {s : IniFile.Section} {k : Str} (h : CIUnique s) :
    (s.Delete k).1.Exists k = false := by
  unfold IniFile.Section.Delete
  cases hf : findPair s.values k with
  | none => simp [IniFile.Section.Exists, hf]
  | some p =>
    simp only [hf]
    unfold IniFile.Section.Exists
    rw [findPair_eraseP_of_unique h]
    rfl

theorem ciUnique_replaceFirst {vs : List (Str × Str)} (k v : Str)
    (h : vs.Pairwise (fun p q => foldCase p.1 ≠ foldCase q.1)) :
    (replaceFirst vs k v).Pairwise (fun p q => foldCase p.1 ≠ foldCase q.1) := by
  induction vs with
  | nil => exact List.Pairwise.nil
  | cons p ps ih =>
    rcases List.pairwise_cons.1 h with ⟨hp, hps⟩
    unfold replaceFirst
    by_cases hc : ciEq p.1 k = true
    · rw [if_pos hc]
      exact List.pairwise_cons.2 ⟨fun q hq => hp q hq, hps⟩
    · rw [if_neg hc]
      refine List.pairwise_cons.2 ⟨?_, ih hps⟩
      intro q hq
      have hmem : q.1 ∈ (replaceFirst ps k v).map (fun p => p.1) :=
        List.mem_map_of_mem _ hq
      rw [replaceFirst_map_fst] at hmem
      rcases List.mem_map.1 hmem with ⟨q', hq', hfst⟩
      rw [← hfst]
      exact hp q' hq'

theorem ciUnique_set {s : IniFile.Section} (k v : Str) (h : CIUnique s) :
    CIUnique (s.Set k v) := by
  unfold IniFile.Section.Set
  cases hf : findPair s.values k with
  | some p =>
    simp only [hf]
    exact ciUnique_replaceFirst k v h
  | none =>
    simp only [hf]
    unfold CIUnique at h ⊢
    rw [List.pairwise_append]
    refine ⟨h, List.pairwise_singleton _ _, ?_⟩
    intro a ha b hb
    have hb' : b = (k, v) := by simpa using hb
    subst hb'
    unfold findPair at hf
    have := List.find?_eq_none.1 hf a ha
    simpa [ciEq] using this

theorem ciUnique_delete {s : IniFile.Section} (k : Str) (h : CIUnique s) :
    CIUnique (s.Delete k).1 := by
  unfold IniFile.Section.Delete
  cases hf : findPair s.values k with
  | none => simpa [hf] using h
  | some p =>
    simp only [hf]
    exact List.Pairwise.sublist (List.eraseP_sublist _) h

theorem ciUnique_setLines {s : IniFile.Section} (ls : List Str) (h : CIUnique s) :
    CIUnique (s.SetLines ls) := h

theorem ciUnique_emptySec (n : Str) : CIUnique (emptySec n) := List.Pairwise.nil

theorem mem_applyFirst {ss : List IniFile.Section} {n : Str}
    {f : IniFile.Section → IniFile.Section} {t : IniFile.Section}
    (ht : t ∈ applyFirst ss n f) : t ∈ ss ∨ ∃ u ∈ ss, t = f u := by
  induction ss with
  | nil => simp [applyFirst] at ht
  | cons s ss ih =>
    unfold applyFirst at ht
    by_cases h : s.name = n
    · rw [if_pos h] at ht
      rcases List.mem_cons.1 ht with h1 | h1
      · exact Or.inr ⟨s, List.mem_cons_self _ _, h1⟩
      · exact Or.inl (List.mem_cons_of_mem _ h1)
    · rw [if_neg h] at ht
      rcases List.mem_cons.1 ht with h1 | h1
      · exact Or.inl (h1 ▸ List.mem_cons_self _ _)
      · rcases ih h1 with h2 | ⟨u, hu, h2⟩
        · exact Or.inl (List.mem_cons_of_mem _ h2)
        · exact Or.inr ⟨u, List.mem_cons_of_mem _ hu, h2⟩

theorem doLine_sections_pred (P : IniFile.Section → Prop)
    (hset : ∀ u k v, P u → P (u.Set k v))
    (hlin : ∀ u l, P u → P { u with m_lines := u.m_lines ++ [l] })
    (hnew : ∀ n, P (emptySec n))
    (st : IniFile × Option Str) (l : Str)
    (h : ∀ t ∈ st.1.sections, P t) : ∀ t ∈ (doLine st l).1.sections, P t := by
  unfold doLine
  by_cases h0 : trim (chompCR l) = []
  · simpa [h0] using h
  · rw [if_neg h0]
    cases hh : parseHeader (chompCR l) with
    | some n =>
      simp only []
      unfold IniFile.GetOrCreateSection
      cases findSec st.1 n with
      | some _ => exact h
      | none =>
        intro t ht
        rcases List.mem_append.1 ht with h1 | h1
        · exact h t h1
        · have : t = emptySec n := by simpa using h1
          exact this ▸ hnew n
    | none =>
      cases hcur : st.2 with
      | none => exact h
      | some n =>
        cases hp : ParseLine (chompCR l) with
        | some kv =>
          obtain ⟨k, v⟩ := kv
          simp only []
          intro t ht
          rcases mem_applyFirst ht with h1 | ⟨u, hu, rfl⟩
          · exact h t h1
          · exact hset _ _ _ (h u hu)
        | none =>
          simp only []
          intro t ht
          rcases mem_applyFirst ht with h1 | ⟨u, hu, rfl⟩
          · exact h t h1
          · exact hlin _ _ (h u hu)

theorem parseLines_sections_pred (P : IniFile.Section → Prop)
    (hset : ∀ u k v, P u → P (u.Set k v))
    (hlin : ∀ u l, P u → P { u with m_lines := u.m_lines ++ [l] })
    (hnew : ∀ n, P (emptySec n)) :
    ∀ (ls : List Str) (st : IniFile × Option Str),
      (∀ t ∈ st.1.sections, P t) → ∀ t ∈ (parseLines ls st).1.sections, P t := by
  intro ls
  induction ls with
  | nil => intro st h; exact h
  | cons l ls ih =>
    intro st h
    exact ih (doLine st l) (doLine_sections_pred P hset hlin hnew st l h)

theorem getTyped_eq (s : IniFile.Section) (key : Str) (d : Int) :
    s.GetTyped key d =
      match (lookupVal s.values key).bind TryParseInt with
      | some v => (true, v)
      | none => (false, d) := by
  unfold IniFile.Section.GetTyped IniFile.Section.Get lookupVal
  cases hf : findPair s.values key with
  | none => simp [hf]
  | some p =>
    simp only [hf, Option.map_some, Option.some_bind]
    cases ht : TryParseInt p.2 <;> simp [ht]

/-- Claim C3: the typed `Section::Get(key, out, default_value)` returns `true`
together with the parsed value exactly when the key exists and its stored
string parses as the target type; in every other case (missing key, or a
stored string that fails to parse) it returns `false` together with
`default_value`, with no distinction between the two failure cases. -/
theorem getTyped_spec (s : IniFile.Section) (key : Str) (d : Int) :
    s.GetTyped key d =
      match (lookupVal s.values key).bind TryParseInt with
      | some v => (true, v)
      | none => (false, d) :=
  getTyped_eq s key d

/-- Claim C4: key lookups are case-insensitive while values are stored and
returned verbatim: setting under key `k` and reading under any key `k'` in the
same case-insensitive class yields the stored value and `Exists` is true; and
when the key was already present, neither the stored keys (with their original
case) nor `keys_order` change. -/
theorem set_get_case_insensitive (s : IniFile.Section) (k k' v : Str)
    (h : foldCase k = foldCase k') :
    (s.Set k v).Get k' NULL_STRING = (true, v)
  ∧ (s.Set k v).Exists k' = true
  ∧ (s.Exists k = true →
      (s.Set k v).values.map (fun p => p.1) = s.values.map (fun p => p.1)
      ∧ (s.Set k v).keys_order = s.keys_order) := by
  refine ⟨?_, ?_, ?_⟩
  · unfold IniFile.Section.Get
    rw [findPair_set, if_pos h.symm]
  · unfold IniFile.Section.Exists
    rw [findPair_set, if_pos h.symm]
    rfl
  · intro hex
    unfold IniFile.Section.Exists at hex
    rcases Option.isSome_iff_exists.1 hex with ⟨p, hp⟩
    unfold IniFile.Section.Set
    rw [hp]
    exact ⟨replaceFirst_map_fst s.values k v, rfl⟩

/-- Witness for C4: `Set("Key","a")` then `Get("key")` returns `"a"`, and
`Exists("KEY")` is true. -/
theorem set_get_case_insensitive_witness :
    ((emptySec "sec".data).Set "Key".data "a".data).Get "key".data NULL_STRING
        = (true, "a".data)
  ∧ ((emptySec "sec".data).Set "Key".data "a".data).Exists "KEY".data = true := by
  have h1 := set_get_case_insensitive (emptySec "sec".data) "Key".data "key".data
    "a".data (by decide)
  have h2 := set_get_case_insensitive (emptySec "sec".data) "Key".data "KEY".data
    "a".data (by decide)
  exact ⟨h1.1, h2.2.1⟩

/-- Claim C9: every section reachable by the public operations keeps at most
one entry per case-insensitive key class: a fresh section satisfies the
invariant and it is preserved by `Set`, `Delete`, `SetLines`, and by `Load`
(every section of a loaded document satisfies it whenever every section of the
starting document does). -/
theorem ciUnique_invariant (s : IniFile.Section) (n k v : Str) (ls : List Str)
    (ini : IniFile) (lines : List Str) (keep : Bool)
    (hs : CIUnique s) (hini : ∀ t ∈ ini.sections, CIUnique t) :
    CIUnique (emptySec n)
  ∧ CIUnique (s.Set k v)
  ∧ CIUnique (s.Delete k).1
  ∧ CIUnique (s.SetLines ls)
  ∧ ∀ t ∈ (ini.Load lines keep).sections, CIUnique t := by
  refine ⟨ciUnique_emptySec n, ciUnique_set k v hs, ciUnique_delete k hs,
    ciUnique_setLines ls hs, ?_⟩
  unfold IniFile.Load
  apply parseLines_sections_pred CIUnique
    (fun u a b hu => ciUnique_set a b hu)
    (fun u l hu => hu)
    ciUnique_emptySec
  cases keep with
  | true => simpa using hini
  | false => simp [IniFile.empty]

/-- Witness for C9: the invariant holds concretely after a `Set` and a
`Delete` on a two-entry section. -/
theorem ciUnique_invariant_witness :
    CIUnique ((⟨"n".data, ["A".data, "b".data],
        [("A".data, "1".data), ("b".data, "2".data)], []⟩ : IniFile.Section).Set
        "B".data "3".data)
  ∧ CIUnique ((⟨"n".data, ["A".data, "b".data],
        [("A".data, "1".data), ("b".data, "2".data)], []⟩ : IniFile.Section).Delete
        "a".data).1 := by
  have h := ciUnique_invariant
    ⟨"n".data, ["A".data, "b".data], [("A".data, "1".data), ("b".data, "2".data)], []⟩
    "m".data "B".data "3".data [] IniFile.empty [] false
    (by unfold CIUnique; decide) (by simp [IniFile.empty])
  have h2 := ciUnique_invariant
    ⟨"n".data, ["A".data, "b".data], [("A".data, "1".data), ("b".data, "2".data)], []⟩
    "m".data "a".data "3".data [] IniFile.empty [] false
    (by unfold CIUnique; decide) (by simp [IniFile.empty])
  exact ⟨h.2.1, h2.2.2.1⟩

theorem exists_imp_findSec {ini : IniFile} {n k : Str}
    (h : ini.Exists n k = true) : (findSec ini n).isSome = true := by
  unfold IniFile.Exists at h
  cases hf : findSec ini n with
  | none => rw [hf] at h; exact absurd h (by simp)
  | some s => rfl

theorem getOrCreate_of_found {ini : IniFile} {n : Str}
    (h : (findSec ini n).isSome = true) : ini.GetOrCreateSection n = ini := by
  unfold IniFile.GetOrCreateSection
  cases hf : findSec ini n with
  | none => rw [hf] at h; exact absurd h (by simp)
  | some s => rfl

/-- Claim C10: neither `GetIfExists` overload ever mutates the document —
`GetOrCreateSection` is reached only after `Exists` returned true, so the
section already exists and nothing is created.  When the key is absent the
three-argument overload returns false leaving the out-parameter unwritten,
while the four-argument overload writes `defaultValue` into it. -/
theorem getIfExists_frame (ini : IniFile) (n k : Str) (d : Int) :
    (ini.GetIfExists n k).1 = ini
  ∧ (ini.GetIfExistsD n k d).1 = ini
  ∧ (ini.Exists n k = false → ini.GetIfExists n k = (ini, false, none))
  ∧ (ini.Exists n k = false → ini.GetIfExistsD n k d = (ini, false, some d)) := by
  by_cases hex : ini.Exists n k = true
  · have hoc := getOrCreate_of_found (exists_imp_findSec hex)
    refine ⟨?_, ?_, ?_, ?_⟩
    · unfold IniFile.GetIfExists
      rw [if_pos hex, hoc]
    · unfold IniFile.GetIfExistsD
      rw [if_pos hex, hoc]
    · intro hc; rw [hc] at hex; exact absurd hex (by simp)
    · intro hc; rw [hc] at hex; exact absurd hex (by simp)
  · have hex' : ini.Exists n k = false := by simpa using hex
    unfold IniFile.GetIfExists IniFile.GetIfExistsD
    simp [hex']

/-- Witness for C10: on a document without the key, both overloads leave the
document unchanged, return false, and only the four-argument one writes the
default. -/
theorem getIfExists_frame_witness :
    IniFile.empty.GetIfExists "s".data "k".data = (IniFile.empty, false, none)
  ∧ IniFile.empty.GetIfExistsD "s".data "k".data 7 = (IniFile.empty, false, some 7) := by
  have h := getIfExists_frame IniFile.empty "s".data "k".data 7
  exact ⟨h.2.2.1 (by decide), h.2.2.2 (by decide)⟩

theorem digitChar_ne_dash (d : Nat) : digitChar d ≠ '-' := by
  unfold digitChar
  split_ifs <;> decide

theorem charVal_digitChar {d : Nat} (h : d < 10) : charVal (digitChar d) = some d := by
  interval_cases d <;> decide

theorem mapCharVals_digits {l : List Nat} (h : ∀ d ∈ l, d < 10) :
    mapCharVals (l.map digitChar) = some l := by
  induction l with
  | nil => rfl
  | cons d ds ih =>
    have hd := h d (List.mem_cons_self _ _)
    have hds := ih (fun x hx => h x (List.mem_cons_of_mem _ hx))
    simp [mapCharVals, charVal_digitChar hd, hds]

theorem parseNat_natToStr (n : Nat) : parseNat (natToStr n) = some n := by
  by_cases h0 : n = 0
  · subst h0; decide
  · have hne : Nat.digits 10 n ≠ [] := Nat.digits_ne_nil_iff_ne_zero.2 h0
    have hlt : ∀ d ∈ (Nat.digits 10 n).reverse, d < 10 := fun d hd =>
      Nat.digits_lt_base (by norm_num) (List.mem_reverse.1 hd)
    unfold natToStr
    rw [if_neg h0]
    have hne2 : ((Nat.digits 10 n).reverse.map digitChar) ≠ [] := by
      simp [hne]
    rw [parseNat, if_neg hne2, mapCharVals_digits hlt]
    simp [Nat.ofDigits_digits]

theorem natToStr_head_ne_dash (n : Nat) : (natToStr n).head? ≠ some '-' := by
  unfold natToStr
  by_cases h0 : n = 0
  · rw [if_pos h0]; decide
  · rw [if_neg h0]
    have hne : (Nat.digits 10 n).reverse ≠ [] := by
      simp [Nat.digits_ne_nil_iff_ne_zero.2 h0]
    rcases List.exists_cons_of_ne_nil hne with ⟨d, ds, heq⟩
    rw [heq]
    simp only [List.map_cons, List.head?_cons]
    intro hc
    exact digitChar_ne_dash d (Option.some.inj hc)

theorem tryParse_valueToString (i : Int) : TryParseInt (ValueToString i) = some i := by
  unfold ValueToString TryParseInt
  by_cases hneg : i < 0
  · rw [if_pos hneg]
    simp only [List.head?_cons, List.tail_cons, if_pos rfl]
    rw [parseNat_natToStr]
    exact congrArg some (show -(i.natAbs : Int) = i by omega)
  · rw [if_neg hneg, if_neg (natToStr_head_ne_dash i.natAbs)]
    rw [parseNat_natToStr]
    exact congrArg some (show ((i.natAbs : Int)) = i by omega)

/-- Claim C2: the typed `Set(key, value, default_value)` deletes the key when
`value == default_value` under the value type's native equality (so `Exists`
is false afterwards, given the case-insensitive uniqueness invariant), and
otherwise stores the value (so the typed `Get` returns true with that
value). -/
theorem setTypedDefault_spec (s : IniFile.Section) (k : Str) (v d : Int)
    (h : CIUnique s) :
    (v = d → (s.SetTypedDefault k v d).Exists k = false)
  ∧ (v ≠ d → (s.SetTypedDefault k v d).GetTyped k 0 = (true, v)) := by
  constructor
  · intro hvd
    unfold IniFile.Section.SetTypedDefault
    rw [if_neg (by simpa using hvd)]
    exact exists_delete h
  · intro hvd
    unfold IniFile.Section.SetTypedDefault
    rw [if_pos hvd]
    unfold IniFile.Section.SetTyped
    rw [getTyped_eq, lookupVal_set, if_pos rfl]
    simp [tryParse_valueToString]

/-- Witness for C2: `Set("k", 5, 5)` leaves `Exists("k")` false, and
`Set("k", 5, 0)` makes the typed `Get` return true with value 5. -/
theorem setTypedDefault_witness :
    ((emptySec "sec".data).SetTypedDefault "k".data 5 5).Exists "k".data = false
  ∧ ((emptySec "sec".data).SetTypedDefault "k".data 5 0).GetTyped "k".data 0
      = (true, 5) := by
  have h1 := setTypedDefault_spec (emptySec "sec".data) "k".data 5 5
    (by unfold CIUnique; decide)
  have h2 := setTypedDefault_spec (emptySec "sec".data) "k".data 5 0
    (by unfold CIUnique; decide)
  exact ⟨h1.1 rfl, h2.2 (by decide)⟩

theorem strLt_asymm : ∀ {a b : Str}, strLt a b = true → strLt b a = false := by
  intro a
  induction a with
  | nil =>
    intro b h
    cases b with
    | nil => exact absurd h (by decide)
    | cons c cs => rfl
  | cons x xs ih =>
    intro b h
    cases b with
    | nil => exact absurd h (by simp [strLt])
    | cons y ys =>
      unfold strLt at h ⊢
      by_cases h1 : x < y
      · rw [if_neg (lt_asymm h1), if_pos h1]
      · rw [if_neg h1] at h
        by_cases h2 : y < x
        · rw [if_pos h2] at h
          exact absurd h (by decide)
        · rw [if_neg h2] at h
          rw [if_neg h2, if_neg h1]
          exact ih h

theorem strLt_le_trans : ∀ {a b c : Str},
    strLt b a = false → strLt c b = false → strLt c a = false := by
  intro a
  induction a with
  | nil =>
    intro b c h1 h2
    cases c with
    | nil => rfl
    | cons z zs => rfl
  | cons x xs ih =>
    intro b c h1 h2
    cases c with
    | nil =>
      cases b with
      | nil => exact absurd h1 (by simp [strLt])
      | cons y ys => exact absurd h2 (by simp [strLt])
    | cons z zs =>
      cases b with
      | nil => exact absurd h1 (by simp [strLt])
      | cons y ys =>
        unfold strLt at h1 h2 ⊢
        by_cases hyx : y < x
        · rw [if_pos hyx] at h1
          exact absurd h1 (by decide)
        · rw [if_neg hyx] at h1
          by_cases hzy : z < y
          · rw [if_pos hzy] at h2
            exact absurd h2 (by decide)
          · rw [if_neg hzy] at h2
            have hxz : x ≤ z := le_trans (not_lt.1 hyx) (not_lt.1 hzy)
            rw [if_neg (not_lt.2 hxz)]
            by_cases hxz2 : x < z
            · rw [if_pos hxz2]
            · rw [if_neg hxz2]
              have hxz3 : x = z := le_antisymm hxz (not_lt.1 hxz2)
              have hxy : ¬ x < y := not_lt.2 (hxz3 ▸ not_lt.1 hzy)
              rw [if_neg hxy] at h1
              have hyz : ¬ y < z := not_lt.2 (hxz3 ▸ not_lt.1 hyx)
              rw [if_neg hyz] at h2
              exact ih h1 h2

theorem insertSorted_perm (x : IniFile.Section) (l : List IniFile.Section) :
    (insertSorted x l).Perm (x :: l) := by
  induction l with
  | nil => exact List.Perm.refl _
  | cons y ys ih =>
    unfold insertSorted
    by_cases h : IniFile.Section.lt y x = true
    · rw [if_pos h]
      exact (List.Perm.cons y ih).trans (List.Perm.swap x y ys)
    · rw [if_neg h]

theorem insertSorted_pairwise {l : List IniFile.Section} (x : IniFile.Section)
    (h : l.Pairwise (fun a b => IniFile.Section.lt b a = false)) :
    (insertSorted x l).Pairwise (fun a b => IniFile.Section.lt b a = false) := by
  induction l with
  | nil => exact List.pairwise_singleton _ _
  | cons y ys ih =>
    rcases List.pairwise_cons.1 h with ⟨hy, hys⟩
    unfold insertSorted
    by_cases hlt : IniFile.Section.lt y x = true
    · rw [if_pos hlt]
      refine List.pairwise_cons.2 ⟨?_, ih hys⟩
      intro z hz
      have hz' : z = x ∨ z ∈ ys := by
        simpa using (insertSorted_perm x ys).mem_iff.1 hz
      rcases hz' with rfl | hz'
      · exact strLt_asymm hlt
      · exact hy z hz'
    · rw [if_neg hlt]
      have hxy : IniFile.Section.lt y x = false := by simpa using hlt
      refine List.pairwise_cons.2 ⟨?_, h⟩
      intro z hz
      rcases List.mem_cons.1 hz with rfl | hz'
      · exact hxy
      · exact strLt_le_trans hxy (hy z hz')

theorem foldr_insertSorted_perm (l : List IniFile.Section) :
    (l.foldr insertSorted []).Perm l := by
  induction l with
  | nil => exact List.Perm.refl _
  | cons x xs ih => exact (insertSorted_perm x _).trans (List.Perm.cons x ih)

theorem foldr_insertSorted_pairwise (l : List IniFile.Section) :
    (l.foldr insertSorted []).Pairwise (fun a b => IniFile.Section.lt b a = false) := by
  induction l with
  | nil => exact List.Pairwise.nil
  | cons x xs ih => exact insertSorted_pairwise x ih

/-- Claim C1 (amended): `SortSections` permutes the section sequence into the
ascending order given by `Section::operator<`, which compares names with
`std::string`'s case-sensitive `operator<` — not into case-insensitive
order. -/
theorem sortSections_sorted (ini : IniFile) :
    ini.SortSections.sections.Perm ini.sections
  ∧ ini.SortSections.sections.Pairwise (fun a b => IniFile.Section.lt b a = false) :=
  ⟨foldr_insertSorted_perm ini.sections, foldr_insertSorted_pairwise ini.sections⟩

/-- Counterexample for C1 as stated: sorting the document with sections named
`a` and `B` yields the order `B`, `a` (the order of `operator<`), which is not
case-insensitive lexical order, since `a` precedes `B` case-insensitively. -/
theorem sortSections_not_case_insensitive :
    ¬ (docSort.SortSections.sections.map (fun s => s.name)).Pairwise
        (fun a b => ciLt b a = false) := by decide

theorem takeWhile_append_all {p : Char → Bool} {l : Str} (h : ∀ c ∈ l, p c = true)
    (r : Str) : (l ++ r).takeWhile p = l ++ r.takeWhile p := by
  induction l with
  | nil => rfl
  | cons c cs ih =>
    have hc := h c (List.mem_cons_self _ _)
    simp only [List.cons_append, List.takeWhile_cons, hc, if_pos]
    rw [ih (fun d hd => h d (List.mem_cons_of_mem _ hd))]

theorem trim_of_all_space {s : Str} (h : ∀ c ∈ s, isSpace c = true) : trim s = [] := by
  have h1 : s.reverse.dropWhile isSpace = [] :=
    List.dropWhile_eq_nil_iff.2 (fun c hc => h c (List.mem_reverse.1 hc))
  unfold trim trimRight trimLeft
  rw [h1]
  rfl

theorem stripComment_of_comment_line {l : Str}
    (h : (trimLeft l).head? = some '#') : stripComment l = [] := by
  unfold stripComment
  apply trim_of_all_space
  intro c hc
  induction l with
  | nil => simp at hc
  | cons a as ih =>
    by_cases ha : isSpace a = true
    · rw [show trimLeft (a :: as) = trimLeft as by
        simp [trimLeft, List.dropWhile_cons, ha]] at h
      have hane : (a == '#') = false := by
        cases hb : (a == '#') with
        | false => rfl
        | true =>
          have : a = '#' := by simpa using hb
          subst this
          exact absurd ha (by decide)
      rw [List.takeWhile_cons] at hc
      simp only [hane, Bool.not_false, if_pos] at hc
      rcases List.mem_cons.1 hc with rfl | hc'
      · exact ha
      · exact ih h hc'
    · have hlt : trimLeft (a :: as) = a :: as := by
        simp [trimLeft, List.dropWhile_cons, ha]
      rw [hlt] at h
      have ha2 : a = '#' := by simpa using h
      subst ha2
      rw [List.takeWhile_cons] at hc
      simp at hc

theorem stripComment_append {p q : Str} (h : '#' ∉ p) :
    stripComment (p ++ '#' :: q) = trim p := by
  unfold stripComment
  have hall : ∀ c ∈ p, (!(c == '#')) = true := by
    intro c hc
    simp only [Bool.not_eq_true']
    cases hb : (c == '#') with
    | false => rfl
    | true =>
      have : c = '#' := by simpa using hb
      exact absurd (this ▸ hc) h
  rw [takeWhile_append_all hall]
  simp [List.takeWhile_cons]

/-- Claim C8: `GetLines(out, remove_comments)` returns false exactly when the
section's `m_lines` is empty; when non-empty it copies the lines to the
out-parameter (verbatim without `remove_comments`, filtered by the comment
rule with it): a purely-comment line (leading `#` after stripping leading
whitespace) strips to nothing and is dropped entirely, while a line with a
trailing `#` comment survives as its trimmed non-comment prefix. -/
theorem getLines_spec (s : IniFile.Section) (rc : Bool) :
    ((s.GetLines rc).1 = false ↔ s.m_lines = [])
  ∧ (s.m_lines ≠ [] → (s.GetLines false).2 = s.m_lines)
  ∧ (s.m_lines ≠ [] → (s.GetLines true).2 = s.m_lines.filterMap
      (fun l => if stripComment l = [] then none else some (stripComment l)))
  ∧ (∀ l, (trimLeft l).head? = some '#' → stripComment l = [])
  ∧ (∀ p q, '#' ∉ p → stripComment (p ++ '#' :: q) = trim p) := by
  refine ⟨?_, ?_, ?_, fun l h => stripComment_of_comment_line h,
    fun p q h => stripComment_append h⟩
  · unfold IniFile.Section.GetLines
    by_cases h : s.m_lines = [] <;> simp [h]
  · intro h
    unfold IniFile.Section.GetLines
    simp [h]
  · intro h
    unfold IniFile.Section.GetLines
    simp [h]

/-- Witness for C8: on the raw-mode section with lines
`["# c", "a=b", "x # trailing"]`, comment removal yields `["a=b", "x"]` and
verbatim retrieval yields the lines unchanged. -/
theorem getLines_witness :
    (secRawLines.GetLines true).2 = ["a=b".data, "x".data]
  ∧ (secRawLines.GetLines false).2
      = ["# c".data, "a=b".data, "x # trailing".data] := by
  have h1 := getLines_spec secRawLines true
  have h2 := getLines_spec secRawLines false
  exact ⟨(h1.2.2.1 (by decide)).trans (by decide),
    (h2.2.1 (by decide)).trans (by decide)⟩

theorem parseLines_nil (st : IniFile × Option Str) : parseLines [] st = st := rfl

theorem parseLines_cons (l : Str) (ls : List Str) (st : IniFile × Option Str) :
    parseLines (l :: ls) st = parseLines ls (doLine st l) := rfl

theorem doLine_eq (st : IniFile × Option Str) (line : Str) :
    doLine st line =
      if trim (chompCR line) = [] then st
      else
        match parseHeader (chompCR line) with
        | some n => (st.1.GetOrCreateSection n, some n)
        | none =>
          match st.2 with
          | none => st
          | some n =>
            match ParseLine (chompCR line) with
            | some (k, v) => (modifySec st.1 n (fun s => s.Set k v), st.2)
            | none =>
              (modifySec st.1 n
                (fun s => { s with m_lines := s.m_lines ++ [chompCR line] }), st.2) := rfl

theorem trimLeft_cons_of_not_space {c : Char} (h : isSpace c = false) (s : Str) :
    trimLeft (c :: s) = c :: s := by
  simp [trimLeft, List.dropWhile_cons, h]

theorem dropWhile_eq_self_head {p : Char → Bool} {a : Char} {t : List Char}
    (h : List.dropWhile p (a :: t) = a :: t) : p a = false := by
  by_cases hp : p a = true
  · rw [List.dropWhile_cons, if_pos hp] at h
    have hlen := congrArg List.length h
    have hle := (List.dropWhile_sublist (l := t) p).length_le
    simp only [List.length_cons] at hlen
    omega
  · simpa using hp

theorem trimRight_front (s : Str) : trimRight s <+: s := by
  have h1 : s.reverse.dropWhile isSpace <:+ s.reverse := List.dropWhile_suffix _
  have h2 : (s.reverse.dropWhile isSpace).reverse.reverse <:+ s.reverse := by
    rw [List.reverse_reverse]; exact h1
  exact List.reverse_suffix.1 h2

theorem trimLeft_suffix (s : Str) : trimLeft s <:+ s := List.dropWhile_suffix _

theorem trim_eq_self_parts {s : Str} (h : trim s = s) :
    trimLeft s = s ∧ trimRight s = s := by
  have h1 : trimRight s <+: s := trimRight_front s
  have h2 : trimLeft (trimRight s) <:+ trimRight s := trimLeft_suffix _
  rw [trim] at h
  have l1 : s.length ≤ (trimRight s).length := by
    conv_lhs => rw [← h]
    exact h2.length_le
  have l2 : (trimRight s).length ≤ s.length := h1.length_le
  have heq : trimRight s = s := h1.eq_of_length (le_antisymm l2 l1)
  rw [heq] at h
  exact ⟨h, heq⟩

theorem revDrop_append {p : Char → Bool} (s t : Str)
    (h : (t.reverse.dropWhile p).reverse ≠ []) :
    ((s ++ t).reverse.dropWhile p).reverse = s ++ (t.reverse.dropWhile p).reverse := by
  rw [List.reverse_append, List.dropWhile_append]
  have hne : (t.reverse.dropWhile p).isEmpty = false := by
    cases hcase : t.reverse.dropWhile p with
    | nil => exact absurd (by rw [hcase]; rfl) h
    | cons a as => rfl
  rw [if_neg (by simp [hne])]
  rw [List.reverse_append, List.reverse_reverse]

theorem trimRight_append {s t : Str} (h : trimRight t ≠ []) :
    trimRight (s ++ t) = s ++ trimRight t :=
  revDrop_append s t h

theorem chompCR_append {s t : Str} (h : chompCR t ≠ []) :
    chompCR (s ++ t) = s ++ chompCR t :=
  revDrop_append s t h

theorem revDrop_append_single {p : Char → Bool} (s : Str) {c : Char}
    (h : p c = false) : ((s ++ [c]).reverse.dropWhile p).reverse = s ++ [c] := by
  rw [List.reverse_append]
  simp only [List.reverse_cons, List.reverse_nil, List.nil_append, List.singleton_append,
    List.dropWhile_cons, h]
  simp

theorem trimRight_append_single (s : Str) {c : Char} (h : isSpace c = false) :
    trimRight (s ++ [c]) = s ++ [c] :=
  revDrop_append_single s h

theorem chompCR_append_single (s : Str) {c : Char}
    (h : (c == '\r' || c == '\n') = false) : chompCR (s ++ [c]) = s ++ [c] :=
  revDrop_append_single s h

theorem crlf_false_of_not_space {c : Char} (h : isSpace c = false) :
    (c == '\r' || c == '\n') = false := by
  unfold isSpace at h
  cases h1 : (c == '\r') with
  | true => rw [h1] at h; simp at h
  | false =>
    cases h2 : (c == '\n') with
    | true => rw [h2] at h; simp at h
    | false => simp [h1, h2]

theorem chompCR_of_trimRight {v : Str} (h : trimRight v = v) : chompCR v = v := by
  by_cases hv : v = []
  · subst hv; rfl
  · have hrev : v.reverse ≠ [] := by simpa using hv
    rcases List.exists_cons_of_ne_nil hrev with ⟨c, t, hct⟩
    have hdrop : v.reverse.dropWhile isSpace = v.reverse := by
      have := congrArg List.reverse h
      unfold trimRight at this
      simpa using this
    rw [hct] at hdrop
    have hc : isSpace c = false := dropWhile_eq_self_head hdrop
    unfold chompCR
    rw [hct, List.dropWhile_cons, if_neg (by simp [crlf_false_of_not_space hc])]
    rw [← hct, List.reverse_reverse]

theorem trim_ne_nil_of_head {c : Char} {s : Str} (h : isSpace c = false) :
    trim (c :: s) ≠ [] := by
  intro hnil
  unfold trim at hnil
  have hpre : trimRight (c :: s) <+: c :: s := trimRight_front _
  rcases hpre with ⟨t, ht⟩
  cases hcase : trimRight (c :: s) with
  | nil =>
    rw [hcase] at ht
    simp only [List.nil_append] at ht
    -- trimRight (c :: s) = [] means every character of c :: s is whitespace
    unfold trimRight at hcase
    have hall : ∀ x ∈ (c :: s).reverse, isSpace x = true := by
      apply List.dropWhile_eq_nil_iff.1
      have := congrArg List.reverse hcase
      simpa using this
    have := hall c (by simp)
    rw [h] at this
    exact absurd this (by decide)
  | cons a t' =>
    rw [hcase] at ht hnil
    have ha : a = c := by
      rw [List.cons_append] at ht
      exact (List.cons.inj ht).1
    unfold trimLeft at hnil
    rw [List.dropWhile_cons, ha, if_neg (by simp [h])] at hnil
    exact absurd hnil (by simp)

theorem header_line_chompCR (n : Str) : chompCR ('[' :: n ++ [']']) = '[' :: n ++ [']'] := by
  have := chompCR_append_single ('[' :: n) (c := ']') (by decide)
  simpa using this

theorem header_line_trimLeft (n : Str) :
    trimLeft ('[' :: n ++ [']']) = '[' :: n ++ [']'] :=
  trimLeft_cons_of_not_space (by decide) _

theorem header_line_trim_ne (n : Str) : trim ('[' :: n ++ [']']) ≠ [] :=
  trim_ne_nil_of_head (by decide)

theorem parseHeader_header {n : Str} (hn : WFname n) :
    parseHeader ('[' :: n ++ [']']) = some n := by
  obtain ⟨htrim, hbr⟩ := hn
  unfold parseHeader
  rw [header_line_trimLeft]
  show (if '[' = '[' ∧ ']' ∈ n ++ [']'] then
      some (trim ((n ++ [']']).takeWhile (fun d => !(d == ']')))) else none) = some n
  rw [if_pos ⟨rfl, by simp⟩]
  have hall : ∀ c ∈ n, (!(c == ']')) = true := by
    intro c hc
    simp only [Bool.not_eq_true']
    cases hb : (c == ']') with
    | false => rfl
    | true =>
      have : c = ']' := by simpa using hb
      exact absurd (this ▸ hc) hbr
  rw [takeWhile_append_all hall]
  simp only [List.takeWhile_cons]
  rw [if_neg (by decide)]
  rw [List.append_nil, htrim]

theorem doLine_header {n : Str} (hn : WFname n) (st : IniFile × Option Str) :
    doLine st ('[' :: n ++ [']']) = (st.1.GetOrCreateSection n, some n) := by
  rw [doLine_eq, header_line_chompCR, if_neg (header_line_trim_ne n),
    parseHeader_header hn]

theorem splitAtEq_append {a : Str} (b : Str) (h : '=' ∉ a) :
    splitAtEq (a ++ '=' :: b) = some (a, b) := by
  induction a with
  | nil => simp [splitAtEq]
  | cons c cs ih =>
    have hc : c ≠ '=' := fun hc => h (hc ▸ List.mem_cons_self _ _)
    rw [List.cons_append]
    unfold splitAtEq
    rw [if_neg hc, ih (fun hm => h (List.mem_cons_of_mem _ hm))]
    rfl

theorem trim_append_space {k : Str} (h : trim k = k) : trim (k ++ [' ']) = k := by
  rcases trim_eq_self_parts h with ⟨hl, hr⟩
  have h2 : k.reverse.dropWhile isSpace = k.reverse := by
    have := congrArg List.reverse hr
    unfold trimRight at this
    simpa using this
  have h1 : trimRight (k ++ [' ']) = k := by
    unfold trimRight
    rw [List.reverse_append]
    simp only [List.reverse_cons, List.reverse_nil, List.nil_append, List.singleton_append]
    rw [List.dropWhile_cons, if_pos (by decide), h2, List.reverse_reverse]
  unfold trim
  rw [h1, hl]

theorem trim_cons_space {v : Str} (h : trim v = v) : trim (' ' :: v) = v := by
  rcases trim_eq_self_parts h with ⟨hl, hr⟩
  by_cases hv : v = []
  · subst hv; decide
  · unfold trim
    have h1 : trimRight (' ' :: v) = ' ' :: v := by
      have := trimRight_append (s := [' ']) (t := v) (by rw [hr]; exact hv)
      rw [hr] at this
      simpa using this
    rw [h1]
    have h2 : trimLeft (' ' :: v) = trimLeft v := by
      unfold trimLeft
      rw [List.dropWhile_cons, if_pos (by decide)]
    rw [h2, hl]

theorem stripComment_cons_space {v : Str} (hvtrim : trim v = v) (hvhash : '#' ∉ v) :
    stripComment (' ' :: v) = v := by
  unfold stripComment
  have h1 : (' ' :: v).takeWhile (fun c => !(c == '#')) =
      ' ' :: v.takeWhile (fun c => !(c == '#')) := by
    simp [List.takeWhile_cons]
  rw [h1]
  have hall : ∀ c ∈ v, (!(c == '#')) = true := by
    intro c hc
    simp only [Bool.not_eq_true']
    cases hb : (c == '#') with
    | false => rfl
    | true =>
      have : c = '#' := by simpa using hb
      exact absurd (this ▸ hc) hvhash
  rw [List.takeWhile_eq_self_iff.2 hall]
  exact trim_cons_space hvtrim

theorem parseLine_kv {k v : Str} (hk : WFkey k) (hv : WFval v) :
    ParseLine (kvLine (k, v)) = some (k, v) := by
  obtain ⟨hkne, hktrim, hkeq, hkhash, hkbr⟩ := hk
  obtain ⟨hvtrim, hvhash⟩ := hv
  have hmem : '=' ∉ k ++ [' '] := by
    intro hm
    rcases List.mem_append.1 hm with hm | hm
    · exact hkeq hm
    · simp at hm
  have hline : kvLine (k, v) = (k ++ [' ']) ++ '=' :: (' ' :: v) := by
    unfold kvLine; simp
  unfold ParseLine
  rw [hline, splitAtEq_append _ hmem]
  simp only [trim_append_space hktrim]
  rw [if_neg hkne, stripComment_cons_space hvtrim hvhash]

theorem kv_line_chompCR {k v : Str} (hk : WFkey k) (hv : WFval v) :
    chompCR (kvLine (k, v)) = kvLine (k, v) := by
  obtain ⟨hkne, hktrim, hkeq, hkhash, hkbr⟩ := hk
  obtain ⟨hvtrim, hvhash⟩ := hv
  by_cases hveq : v = []
  · subst hveq
    have : kvLine (k, ([] : Str)) = (k ++ [' ', '=']) ++ [' '] := by
      unfold kvLine; simp
    rw [this, chompCR_append_single _ (by decide)]
  · have hch : chompCR v = v := chompCR_of_trimRight (trim_eq_self_parts hvtrim).2
    have : kvLine (k, v) = (k ++ [' ', '=', ' ']) ++ v := by
      unfold kvLine; simp
    rw [this, chompCR_append (by rw [hch]; exact hveq), hch]

theorem kv_line_head {k v : Str} (hk : WFkey k) :
    ∃ c cs, kvLine (k, v) = c :: cs ∧ isSpace c = false ∧ c ≠ '[' := by
  obtain ⟨hkne, hktrim, hkeq, hkhash, hkbr⟩ := hk
  rcases List.exists_cons_of_ne_nil hkne with ⟨c, cs, hc⟩
  refine ⟨c, cs ++ ' ' :: '=' :: ' ' :: v, by unfold kvLine; rw [hc]; simp, ?_, ?_⟩
  · have := (trim_eq_self_parts hktrim).1
    rw [hc] at this
    exact dropWhile_eq_self_head this
  · intro hceq
    rw [hc, hceq] at hkbr
    simp at hkbr

theorem parseHeader_not_header {c : Char} {cs : Str} (hsp : isSpace c = false)
    (hbr : c ≠ '[') : parseHeader (c :: cs) = none := by
  unfold parseHeader
  rw [trimLeft_cons_of_not_space hsp]
  simp only []
  rw [if_neg (fun hand => hbr hand.1)]

theorem doLine_kv {k v : Str} (hk : WFkey k) (hv : WFval v) (ini : IniFile) (n : Str) :
    doLine (ini, some n) (kvLine (k, v))
      = (modifySec ini n (fun s => s.Set k v), some n) := by
  rcases kv_line_head (v := v) hk with ⟨c, cs, hline, hsp, hbr⟩
  rw [doLine_eq, kv_line_chompCR hk hv]
  rw [if_neg (by rw [hline]; exact trim_ne_nil_of_head hsp)]
  rw [hline, parseHeader_not_header hsp hbr, ← hline, parseLine_kv hk hv]

theorem map_lookup_eq {vs : List (Str × Str)}
    (hci : vs.Pairwise (fun p q => foldCase p.1 ≠ foldCase q.1)) :
    ∀ p ∈ vs, lookupVal vs p.1 = some p.2 := by
  induction vs with
  | nil => intro p hp; simp at hp
  | cons q qs ih =>
    rcases List.pairwise_cons.1 hci with ⟨hq, hqs⟩
    intro p hp
    rcases List.mem_cons.1 hp with rfl | hp'
    · unfold lookupVal findPair
      rw [List.find?_cons, ciEq_self p.1]
      rfl
    · have hne : ciEq q.1 p.1 = false := by
        rw [← Bool.not_eq_true, ciEq_iff]
        exact hq p hp'
      unfold lookupVal findPair at ih ⊢
      rw [List.find?_cons, hne]
      exact ih hqs p hp'

theorem saveSection_eq_kvLines {s : IniFile.Section} (hml : s.m_lines = [])
    (hko : s.keys_order = s.values.map (fun p => p.1)) (hci : CIUnique s) :
    saveSection s = ('[' :: s.name ++ [']']) :: s.values.map kvLine := by
  unfold saveSection
  rw [if_pos hml, hko, List.map_map]
  congr 1
  apply List.map_congr_left
  intro p hp
  show p.1 ++ ' ' :: '=' :: ' ' :: (lookupVal s.values p.1).getD [] = kvLine p
  rw [map_lookup_eq hci p hp]
  rfl

theorem applyFirst_append_left {secsL : List IniFile.Section} {n : Str}
    {f : IniFile.Section → IniFile.Section} (h : ∀ s ∈ secsL, s.name ≠ n)
    (l : List IniFile.Section) :
    applyFirst (secsL ++ l) n f = secsL ++ applyFirst l n f := by
  induction secsL with
  | nil => rfl
  | cons s ss ih =>
    rw [List.cons_append]
    show (if s.name = n then f s :: (ss ++ l) else s :: applyFirst (ss ++ l) n f)
      = (s :: ss) ++ applyFirst l n f
    rw [if_neg (h s (List.mem_cons_self _ _)),
      ih (fun t ht => h t (List.mem_cons_of_mem _ ht)), List.cons_append]

theorem parse_kvs (rest : List Str) (secsL : List IniFile.Section) (n : Str)
    (hL : ∀ s ∈ secsL, s.name ≠ n) :
    ∀ (pairs : List (Str × Str)) (ko : List Str) (vs : List (Str × Str)),
      (∀ p ∈ pairs, WFkey p.1 ∧ WFval p.2) →
      ((vs ++ pairs).Pairwise (fun p q => foldCase p.1 ≠ foldCase q.1)) →
      parseLines (pairs.map kvLine ++ rest) (⟨secsL ++ [⟨n, ko, vs, []⟩]⟩, some n)
        = parseLines rest
            (⟨secsL ++ [⟨n, ko ++ pairs.map (fun p => p.1), vs ++ pairs, []⟩]⟩, some n) := by
  intro pairs
  induction pairs with
  | nil => intro ko vs _ _; simp
  | cons p ps ih =>
    intro ko vs hwf hci
    obtain ⟨k, v⟩ := p
    obtain ⟨hk, hv⟩ := hwf (k, v) (List.mem_cons_self _ _)
    rw [List.map_cons, List.cons_append, parseLines_cons, doLine_kv hk hv]
    have happ : modifySec ⟨secsL ++ [⟨n, ko, vs, []⟩]⟩ n (fun s => s.Set k v)
        = ⟨secsL ++ [(⟨n, ko, vs, []⟩ : IniFile.Section).Set k v]⟩ := by
      unfold modifySec
      rw [applyFirst_append_left hL]
      unfold applyFirst
      rw [if_pos rfl]
    rw [happ]
    have hfind : findPair vs k = none := by
      rw [findPair, List.find?_eq_none]
      intro q hq hq2
      have hrel : foldCase q.1 ≠ foldCase k := by
        have := (List.pairwise_append.1 hci).2.2 q hq (k, v) (List.mem_cons_self _ _)
        exact this
      exact hrel ((ciEq_iff _ _).1 hq2)
    have hset : (⟨n, ko, vs, []⟩ : IniFile.Section).Set k v
        = ⟨n, ko ++ [k], vs ++ [(k, v)], []⟩ := by
      unfold IniFile.Section.Set
      rw [hfind]
    rw [hset]
    have hci' : ((vs ++ [(k, v)]) ++ ps).Pairwise
        (fun p q => foldCase p.1 ≠ foldCase q.1) := by
      rw [List.append_assoc]
      simpa using hci
    rw [ih (ko ++ [k]) (vs ++ [(k, v)])
      (fun q hq => hwf q (List.mem_cons_of_mem _ hq)) hci']
    simp

theorem parse_block (s : IniFile.Section) (hs : WFsec s) (rest : List Str)
    (acc : List IniFile.Section) (hacc : ∀ t ∈ acc, t.name ≠ s.name)
    (cur : Option Str) :
    parseLines (saveSection s ++ rest) (⟨acc⟩, cur)
      = parseLines rest (⟨acc ++ [s]⟩, some s.name) := by
  obtain ⟨hname, hml, hko, hci, hwf⟩ := hs
  rw [saveSection_eq_kvLines hml hko hci]
  rw [List.cons_append, parseLines_cons, doLine_header hname]
  have hgoc : (⟨acc⟩ : IniFile).GetOrCreateSection s.name
      = ⟨acc ++ [⟨s.name, [], [], []⟩]⟩ := by
    unfold IniFile.GetOrCreateSection findSec
    rw [List.find?_eq_none.2 (fun t ht => by simpa using hacc t ht)]
    rfl
  rw [hgoc]
  have hkvs := parse_kvs rest acc s.name hacc s.values [] []
    (fun p hp => hwf p hp) (by simpa using hci)
  rw [hkvs]
  have hsec : (⟨s.name, [] ++ s.values.map (fun p => p.1), [] ++ s.values, []⟩ :
      IniFile.Section) = s := by
    rw [List.nil_append, List.nil_append, ← hko, ← hml]
  rw [hsec]

theorem parse_blocks : ∀ (ss acc : List IniFile.Section) (cur : Option Str),
    (∀ s ∈ ss, WFsec s) →
    ss.Pairwise (fun a b => a.name ≠ b.name) →
    (∀ s ∈ ss, ∀ t ∈ acc, t.name ≠ s.name) →
    (parseLines ((ss.map saveSection).flatten) (⟨acc⟩, cur)).1 = ⟨acc ++ ss⟩ := by
  intro ss
  induction ss with
  | nil => intro acc cur _ _ _; simp [parseLines_nil]
  | cons s ss ih =>
    intro acc cur hwf hpw hacc
    rcases List.pairwise_cons.1 hpw with ⟨hs, hpw'⟩
    rw [List.map_cons, List.flatten_cons]
    rw [parse_block s (hwf s (List.mem_cons_self _ _)) _ acc
      (hacc s (List.mem_cons_self _ _)) cur]
    have hcond : ∀ s' ∈ ss, ∀ t ∈ acc ++ [s], t.name ≠ s'.name := by
      intro s' hs' t ht
      rcases List.mem_append.1 ht with ht | ht
      · exact hacc s' (List.mem_cons_of_mem _ hs') t ht
      · have : t = s := by simpa using ht
        subst this
        exact hs s' hs'
    rw [ih (acc ++ [s]) (some s.name)
      (fun u hu => hwf u (List.mem_cons_of_mem _ hu)) hpw' hcond]
    simp

theorem load_save_eq {ini : IniFile} (h : WFdoc ini) :
    IniFile.Load IniFile.empty ini.Save false = ini := by
  obtain ⟨hpw, hwf⟩ := h
  unfold IniFile.Load IniFile.Save
  have hpb := parse_blocks ini.sections [] none hwf hpw (by simp)
  simpa [IniFile.empty] using hpb

/-- Claim C6: for a document containing only well-formed `[section]` /
`key = value` content, saving and loading the produced text yields the same
sequence of section names and, for every section and key, the same stored
value. -/
theorem save_load_roundtrip (ini : IniFile) (h : WFdoc ini) :
    docNames (IniFile.Load IniFile.empty ini.Save false) = docNames ini
  ∧ ∀ n k, docLookup (IniFile.Load IniFile.empty ini.Save false) n k
      = docLookup ini n k := by
  rw [load_save_eq h]
  exact ⟨rfl, fun n k => rfl⟩

/-- Witness for C6: the round trip reproduces the one-section document
`[s] k = v` exactly. -/
theorem save_load_roundtrip_witness :
    docNames (IniFile.Load IniFile.empty docRoundTrip.Save false)
        = docNames docRoundTrip
  ∧ docLookup (IniFile.Load IniFile.empty docRoundTrip.Save false) "s".data "k".data
      = docLookup docRoundTrip "s".data "k".data := by
  have h := save_load_roundtrip docRoundTrip
    (by unfold WFdoc WFsec WFname WFkey WFval CIUnique docRoundTrip; decide)
  exact ⟨h.1, h.2 "s".data "k".data⟩

/-- Counterexample for C7 as stated: for the document storing value `a #b`
(reachable via `Set`), saving, loading and saving again is not byte-identical
to the first save — the reload strips the trailing `#b` as a comment. -/
theorem save_load_save_differs :
    (IniFile.Load IniFile.empty docHashValue.Save false).Save ≠ docHashValue.Save := by
  decide

/-- Claim C7 (amended): for a document containing only well-formed
`[section]` / `key = value` content, `Save` then `Load` then `Save` again
produces output byte-identical to the first `Save`. -/
theorem save_load_save_idempotent (ini : IniFile) (h : WFdoc ini) :
    (IniFile.Load IniFile.empty ini.Save false).Save = ini.Save := by
  rw [load_save_eq h]

/-- Witness for C7 (amended): saving, loading and saving the one-section
document `[t] k2 = w` reproduces the first save byte for byte. -/
theorem save_load_save_idempotent_witness :
    (IniFile.Load IniFile.empty docSaveTwice.Save false).Save = docSaveTwice.Save :=
  save_load_save_idempotent docSaveTwice
    (by unfold WFdoc WFsec WFname WFkey WFval CIUnique docSaveTwice; decide)

theorem findSec_isSome_iff {ini : IniFile} {n : Str} :
    (findSec ini n).isSome = true ↔ n ∈ docNames ini := by
  unfold findSec docNames
  rw [List.find?_isSome]
  constructor
  · rintro ⟨s, hs, hp⟩
    exact List.mem_map.2 ⟨s, hs, by simpa using hp⟩
  · intro hm
    rcases List.mem_map.1 hm with ⟨s, hs, rfl⟩
    exact ⟨s, hs, by simp⟩

theorem getOrCreate_docLookup (ini : IniFile) (m n k : Str) :
    docLookup (ini.GetOrCreateSection m) n k = docLookup ini n k := by
  unfold IniFile.GetOrCreateSection
  cases hf : findSec ini m with
  | some s => rfl
  | none =>
    unfold docLookup findSec
    rw [List.find?_append]
    cases hfn : List.find? (fun s => decide (s.name = n)) ini.sections with
    | some s => rfl
    | none =>
      rw [Option.none_or]
      by_cases hmn : m = n
      · subst hmn
        simp [List.find?_cons, emptySec, lookupVal, findPair]
      · simp [List.find?_cons, emptySec, hmn]

theorem getOrCreate_names (ini : IniFile) (m : Str) :
    docNames (ini.GetOrCreateSection m)
      = docNames ini ++ (if m ∈ docNames ini then [] else [m]) := by
  unfold IniFile.GetOrCreateSection
  cases hf : findSec ini m with
  | some s =>
    have hm : m ∈ docNames ini := findSec_isSome_iff.1 (by rw [hf]; rfl)
    rw [if_pos hm, List.append_nil]
  | none =>
    have hnot : m ∉ docNames ini := by
      intro hc
      have := findSec_isSome_iff.2 hc
      rw [hf] at this
      exact absurd this (by simp)
    rw [if_neg hnot]
    unfold docNames
    simp [emptySec]

theorem findSec_getOrCreate_self (ini : IniFile) (m : Str) :
    (findSec (ini.GetOrCreateSection m) m).isSome = true := by
  rw [findSec_isSome_iff, getOrCreate_names]
  by_cases hm : m ∈ docNames ini <;> simp [hm]

theorem find?_applyFirst_self {f : IniFile.Section → IniFile.Section}
    (hf : ∀ s, (f s).name = s.name) (ss : List IniFile.Section) (n : Str) :
    (applyFirst ss n f).find? (fun s => decide (s.name = n))
      = (ss.find? (fun s => decide (s.name = n))).map f := by
  induction ss with
  | nil => rfl
  | cons s ss ih =>
    by_cases hsn : s.name = n
    · show ((if s.name = n then f s :: ss else s :: applyFirst ss n f).find?
        (fun s => decide (s.name = n))) = _
      rw [if_pos hsn, List.find?_cons, List.find?_cons]
      have h1 : decide ((f s).name = n) = true := by simp [hf s, hsn]
      have h2 : decide (s.name = n) = true := by simp [hsn]
      rw [h1, h2]
      rfl
    · show ((if s.name = n then f s :: ss else s :: applyFirst ss n f).find?
        (fun s => decide (s.name = n))) = _
      rw [if_neg hsn, List.find?_cons, List.find?_cons]
      have h1 : decide (s.name = n) = false := by simp [hsn]
      rw [h1]
      exact ih

theorem find?_applyFirst_other {f : IniFile.Section → IniFile.Section}
    (hf : ∀ s, (f s).name = s.name) (ss : List IniFile.Section) {m n : Str}
    (hmn : m ≠ n) :
    (applyFirst ss n f).find? (fun s => decide (s.name = m))
      = ss.find? (fun s => decide (s.name = m)) := by
  induction ss with
  | nil => rfl
  | cons s ss ih =>
    by_cases hsn : s.name = n
    · show ((if s.name = n then f s :: ss else s :: applyFirst ss n f).find?
        (fun s => decide (s.name = m))) = _
      rw [if_pos hsn, List.find?_cons, List.find?_cons]
      have h1 : decide ((f s).name = m) = false := by
        simp [hf s, hsn]
        exact fun hc => hmn hc.symm
      have h2 : decide (s.name = m) = false := by
        simp [hsn]
        exact fun hc => hmn hc.symm
      rw [h1, h2]
    · show ((if s.name = n then f s :: ss else s :: applyFirst ss n f).find?
        (fun s => decide (s.name = m))) = _
      rw [if_neg hsn, List.find?_cons, List.find?_cons]
      by_cases hsm : s.name = m
      · have h1 : decide (s.name = m) = true := by simp [hsm]
        rw [h1]
      · have h1 : decide (s.name = m) = false := by simp [hsm]
        rw [h1]
        exact ih

theorem applyFirst_map_name {f : IniFile.Section → IniFile.Section}
    (hf : ∀ s, (f s).name = s.name) (ss : List IniFile.Section) (n : Str) :
    (applyFirst ss n f).map (fun s => s.name) = ss.map (fun s => s.name) := by
  induction ss with
  | nil => rfl
  | cons s ss ih =>
    by_cases hsn : s.name = n
    · show ((if s.name = n then f s :: ss else s :: applyFirst ss n f).map
        (fun s => s.name)) = _
      rw [if_pos hsn, List.map_cons, List.map_cons, hf s]
    · show ((if s.name = n then f s :: ss else s :: applyFirst ss n f).map
        (fun s => s.name)) = _
      rw [if_neg hsn, List.map_cons, List.map_cons, ih]

theorem docNames_modifySec {f : IniFile.Section → IniFile.Section}
    (hf : ∀ s, (f s).name = s.name) (ini : IniFile) (n : Str) :
    docNames (modifySec ini n f) = docNames ini :=
  applyFirst_map_name hf ini.sections n

theorem docLookup_modifySec {f : IniFile.Section → IniFile.Section}
    (hf : ∀ s, (f s).name = s.name) (ini : IniFile) (n m k : Str) :
    docLookup (modifySec ini n f) m k
      = if m = n then
          (match findSec ini n with
           | some s => lookupVal (f s).values k
           | none => none)
        else docLookup ini m k := by
  unfold docLookup modifySec findSec
  by_cases hmn : m = n
  · subst hmn
    rw [if_pos rfl, find?_applyFirst_self hf]
    cases ini.sections.find? (fun s => decide (s.name = m)) <;> rfl
  · rw [if_neg hmn, find?_applyFirst_other hf _ hmn]

theorem set_name (s : IniFile.Section) (k v : Str) : (s.Set k v).name = s.name := by
  unfold IniFile.Section.Set
  cases findPair s.values k <;> rfl

theorem findSec_modifySec_isSome {f : IniFile.Section → IniFile.Section}
    (hf : ∀ s, (f s).name = s.name) (ini : IniFile) (n : Str) :
    (findSec (modifySec ini n f) n).isSome = (findSec ini n).isSome := by
  unfold findSec modifySec
  rw [find?_applyFirst_self hf]
  cases ini.sections.find? (fun s => decide (s.name = n)) <;> rfl

theorem doLine_snd_eq (X Y : IniFile) (c : Option Str) (l : Str) :
    (doLine (X, c) l).2 = (doLine (Y, c) l).2 := by
  rw [doLine_eq (X, c) l, doLine_eq (Y, c) l]
  by_cases h0 : trim (chompCR l) = []
  · rw [if_pos h0, if_pos h0]
  · rw [if_neg h0, if_neg h0]
    cases parseHeader (chompCR l) with
    | some n => rfl
    | none =>
      cases c with
      | none => rfl
      | some n =>
        cases ParseLine (chompCR l) with
        | some kv => obtain ⟨k, v⟩ := kv; rfl
        | none => rfl

theorem doLine_merge {A D E : IniFile} {cur : Option Str} (l : Str)
    (h : mergeInv A D E cur) :
    mergeInv A (doLine (D, cur) l).1 (doLine (E, cur) l).1 (doLine (E, cur) l).2 := by
  obtain ⟨h1, h2, h3⟩ := h
  rw [doLine_eq (D, cur) l, doLine_eq (E, cur) l]
  by_cases h0 : trim (chompCR l) = []
  · rw [if_pos h0, if_pos h0]
    exact ⟨h1, h2, h3⟩
  · rw [if_neg h0, if_neg h0]
    cases hph : parseHeader (chompCR l) with
    | some m =>
      refine ⟨?_, ?_, ?_⟩
      · show docNames (D.GetOrCreateSection m)
          = docNames A ++ (docNames (E.GetOrCreateSection m)).filter
              (fun m' => decide (m' ∉ docNames A))
        rw [getOrCreate_names, getOrCreate_names, List.filter_append, h1]
        by_cases hmE : m ∈ docNames E
        · have hmD : m ∈ docNames A ++ (docNames E).filter
              (fun m' => decide (m' ∉ docNames A)) := by
            by_cases hmA : m ∈ docNames A
            · exact List.mem_append.2 (Or.inl hmA)
            · exact List.mem_append.2
                (Or.inr (List.mem_filter.2 ⟨hmE, by simpa using hmA⟩))
          rw [if_pos hmD, if_pos hmE]
          simp
        · by_cases hmA : m ∈ docNames A
          · have hmD : m ∈ docNames A ++ (docNames E).filter
                (fun m' => decide (m' ∉ docNames A)) :=
              List.mem_append.2 (Or.inl hmA)
            rw [if_pos hmD, if_neg hmE]
            simp [hmA]
          · have hmD : m ∉ docNames A ++ (docNames E).filter
                (fun m' => decide (m' ∉ docNames A)) := by
              intro hc
              rcases List.mem_append.1 hc with hc | hc
              · exact hmA hc
              · exact hmE (List.mem_filter.1 hc).1
            rw [if_neg hmD, if_neg hmE]
            simp [hmA]
      · intro n' k'
        show docLookup (D.GetOrCreateSection m) n' k'
          = (docLookup (E.GetOrCreateSection m) n' k').or (docLookup A n' k')
        rw [getOrCreate_docLookup, getOrCreate_docLookup]
        exact h2 n' k'
      · intro n' hn'
        have hm : m = n' := Option.some.inj hn'
        subst hm
        exact ⟨findSec_getOrCreate_self E m, findSec_getOrCreate_self D m⟩
    | none =>
      cases cur with
      | none => exact ⟨h1, h2, h3⟩
      | some n =>
        have hE := (h3 n rfl).1
        have hD := (h3 n rfl).2
        rcases Option.isSome_iff_exists.1 hE with ⟨sE, hsE⟩
        rcases Option.isSome_iff_exists.1 hD with ⟨sD, hsD⟩
        cases hpl : ParseLine (chompCR l) with
        | some kv =>
          obtain ⟨k, v⟩ := kv
          have hname : ∀ s : IniFile.Section, (s.Set k v).name = s.name :=
            fun s => set_name s k v
          refine ⟨?_, ?_, ?_⟩
          · show docNames (modifySec D n (fun s => s.Set k v))
              = docNames A ++ (docNames (modifySec E n (fun s => s.Set k v))).filter
                  (fun m' => decide (m' ∉ docNames A))
            rw [docNames_modifySec hname, docNames_modifySec hname]
            exact h1
          · intro m k'
            show docLookup (modifySec D n (fun s => s.Set k v)) m k'
              = (docLookup (modifySec E n (fun s => s.Set k v)) m k').or
                  (docLookup A m k')
            rw [docLookup_modifySec hname, docLookup_modifySec hname]
            by_cases hmn : m = n
            · subst hmn
              rw [if_pos rfl, if_pos rfl, hsD, hsE]
              show lookupVal ((sD.Set k v)).values k'
                = (lookupVal ((sE.Set k v)).values k').or (docLookup A m k')
              rw [lookupVal_set, lookupVal_set]
              by_cases hfk : foldCase k' = foldCase k
              · rw [if_pos hfk, if_pos hfk]
                rfl
              · rw [if_neg hfk, if_neg hfk]
                have hDk := h2 m k'
                unfold docLookup at hDk
                rw [hsD, hsE] at hDk
                simpa using hDk
            · rw [if_neg hmn, if_neg hmn]
              exact h2 m k'
          · intro n' hn'
            have hnn : n = n' := Option.some.inj hn'
            subst hnn
            constructor
            · rw [findSec_modifySec_isSome hname]
              exact hE
            · rw [findSec_modifySec_isSome hname]
              exact hD
        | none =>
          have hname : ∀ s : IniFile.Section,
              ({ s with m_lines := s.m_lines ++ [chompCR l] } : IniFile.Section).name
                = s.name := fun s => rfl
          refine ⟨?_, ?_, ?_⟩
          · show docNames (modifySec D n
                (fun s : IniFile.Section => { s with m_lines := s.m_lines ++ [chompCR l] }))
              = docNames A ++ (docNames (modifySec E n
                  (fun s : IniFile.Section =>
                    { s with m_lines := s.m_lines ++ [chompCR l] }))).filter
                  (fun m' => decide (m' ∉ docNames A))
            rw [docNames_modifySec hname, docNames_modifySec hname]
            exact h1
          · intro m k'
            show docLookup (modifySec D n
                (fun s : IniFile.Section =>
                  { s with m_lines := s.m_lines ++ [chompCR l] })) m k'
              = (docLookup (modifySec E n
                  (fun s : IniFile.Section =>
                    { s with m_lines := s.m_lines ++ [chompCR l] })) m k').or
                  (docLookup A m k')
            rw [docLookup_modifySec hname, docLookup_modifySec hname]
            by_cases hmn : m = n
            · subst hmn
              rw [if_pos rfl, if_pos rfl, hsD, hsE]
              have hDk := h2 m k'
              unfold docLookup at hDk
              rw [hsD, hsE] at hDk
              simpa using hDk
            · rw [if_neg hmn, if_neg hmn]
              exact h2 m k'
          · intro n' hn'
            have hnn : n = n' := Option.some.inj hn'
            subst hnn
            constructor
            · rw [findSec_modifySec_isSome hname]
              exact hE
            · rw [findSec_modifySec_isSome hname]
              exact hD

theorem parseLines_merge : ∀ (ls : List Str) (A D E : IniFile) (cur : Option Str),
    mergeInv A D E cur →
    mergeInv A (parseLines ls (D, cur)).1 (parseLines ls (E, cur)).1
      (parseLines ls (E, cur)).2
    ∧ (parseLines ls (D, cur)).2 = (parseLines ls (E, cur)).2 := by
  intro ls
  induction ls with
  | nil => intro A D E cur h; exact ⟨h, rfl⟩
  | cons l ls ih =>
    intro A D E cur h
    rw [parseLines_cons, parseLines_cons]
    have hstep := doLine_merge l h
    have hsnd := doLine_snd_eq D E cur l
    have hDeq : doLine (D, cur) l = ((doLine (D, cur) l).1, (doLine (E, cur) l).2) := by
      rw [← hsnd]
    have hEeq : doLine (E, cur) l = ((doLine (E, cur) l).1, (doLine (E, cur) l).2) := rfl
    rw [hDeq, hEeq]
    exact ih A _ _ _ hstep

/-- Claim C5: loading more lines with `keep_current_data = true` merges with
extend semantics — for every section and key, the merged lookup is the fresh
parse's value when it defines one (the new file wins) and the prior document's
value otherwise (untouched keys survive); the section order keeps all existing
sections in place and appends the new file's new sections after them, in file
order. -/
theorem load_merge_spec (ini : IniFile) (b : List Str) (n k : Str) :
    docLookup (ini.Load b true) n k
      = (docLookup (IniFile.empty.Load b false) n k).or (docLookup ini n k)
  ∧ docNames (ini.Load b true)
      = docNames ini
        ++ (docNames (IniFile.empty.Load b false)).filter
            (fun m => decide (m ∉ docNames ini)) := by
  have hbase : mergeInv ini ini IniFile.empty none := by
    refine ⟨by simp [IniFile.empty, docNames], fun n' k' => ?_, fun n' hn' => by
      exact absurd hn' (by simp)⟩
    have hempty : docLookup IniFile.empty n' k' = none := rfl
    rw [hempty, Option.none_or]
  have hm := parseLines_merge b ini ini IniFile.empty none hbase
  unfold IniFile.Load
  exact ⟨hm.1.2.1 n k, hm.1.1⟩
